import Mathlib

/-!
Verification of the pure-python cuckoo hash table `PyCuckooHashTable`
(src/hashmap/cuckoo.py) against its natural-language specification.

Shallow-embedding conventions:

* The Python backing list `self._data` interleaves key and value slots
  (`[k0, v0, k1, v1, ...]`, length `m * b * 2`); a cell is the pair of
  slots `(2*i, 2*i+1)`.  Every read and write in the source touches the
  two slots of one cell together (a key slot equals the `_nil` sentinel
  exactly when its cell is free), so the embedding stores one
  `Option (K x V)` per cell, a list of length `m * b`, and uses cell
  indices `i = slot_index / 2` throughout.  Bucket `bkt` owns the cells
  `[bkt*b, bkt*b + b)`, matching `_indices`.
* Key hashing is an external capability: the source digests
  `xxhash.xxh64(str(hash(key))).intdigest()`, a function from keys to
  64-bit integers.  The embedding is parameterised by `hash : K -> Nat`;
  theorems that need the 64-bit range assume `hash k < 2^64`, which the
  real digest always satisfies.  Key equality is the caller's equality,
  modelled by `DecidableEq K`.
* `self._len` is a Python integer, modelled as `Int` (so the `-= 1` in
  `_remove` is ordinary integer arithmetic, not truncated).
* The Python code has no termination bound on the rehash / retry cycle
  (`_displace` -> `_rehash` -> `__setitem__` -> `_displace` -> ...), so
  `setitem` carries a fuel argument counting rehash rounds; `none`
  covers both fuel exhaustion and the runtime errors of the source
  (IndexError on popping an empty deque).  Whenever the Python call
  terminates normally, the model returns `some` of the same table for a
  large enough fuel, and the intermediate states agree step by step.
* BFS paths are stored most-recent-first (`path.head = path[-1]` of the
  Python list), so Python's `path.pop()` is `head` and
  `path + [nxt]` is `nxt :: path`.  `_migrate` walks the path in exactly
  that pop order.
-/

namespace Cuckoo

/-- One table: `b` entries per bucket, `m` buckets, live count `len`
(`self._len`), and the cell array (`self._data`, one `Option` cell per
key/value slot pair). -/
structure Table (K V : Type) where
  b : Nat
  m : Nat
  len : Int
  data : List (Option (K × V))
deriving Repr, DecidableEq

/-- Read a cell (`data[2*i] , data[2*i+1]` in the source); reads past the
end of the list return an empty cell (all in-range in reachable runs). -/
def cellAt {K V : Type} : List (Option (K × V)) → Nat → Option (K × V)
  | [], _ => none
  | c :: _, 0 => c
  | _ :: d, n + 1 => cellAt d n

/-- Write a cell (`data[2*i] = key; data[2*i+1] = val` in the source);
writes past the end are dropped (all in-range in reachable runs). -/
def setCell {K V : Type} : List (Option (K × V)) → Nat → Option (K × V) → List (Option (K × V))
  | [], _, _ => []
  | _ :: d, 0, c => c :: d
  | x :: d, n + 1, c => x :: setCell d n c

/-- Number of occupied cells. -/
def occCount {K V : Type} : List (Option (K × V)) → Nat
  | [] => 0
  | some _ :: d => occCount d + 1
  | none :: d => occCount d

/-- Values stored under key `k`, in cell order. -/
def lookupAll {K V : Type} [DecidableEq K] : List (Option (K × V)) → K → List V
  | [], _ => []
  | some kv :: d, k => if kv.1 = k then kv.2 :: lookupAll d k else lookupAll d k
  | none :: d, k => lookupAll d k

/-- Number of occupied cells holding key `k`. -/
def keyCount {K V : Type} [DecidableEq K] (d : List (Option (K × V))) (k : K) : Nat :=
  (lookupAll d k).length

/-- The occupied `(key, value)` pairs in cell order: the order in which
`_rehash` re-inserts them (`for idx in xrange(0, len(data), 2)`). -/
def pairsList {K V : Type} : List (Option (K × V)) → List (K × V)
  | [] => []
  | some kv :: d => kv :: pairsList d
  | none :: d => pairsList d

/-- Keys yielded by `__iter__`, in cell order. -/
def iterKeys {K V : Type} : List (Option (K × V)) → List K
  | [] => []
  | some kv :: d => kv.1 :: iterKeys d
  | none :: d => iterKeys d

/-- `_buckets`, as a function of the current bucket count `m4` (= `self._m`)
and the 64-bit digest `d` of the key: split the digest in 32-bit halves
and fast-range-reduce each into `[0, m4/2)`, offsetting the second by
`m4/2`.  Python 2's `/` on ints is floor division, as is Nat `/`. -/
def bucketPair (m4 : Nat) (d : Nat) : Nat × Nat :=
  let idx1 := d % 2 ^ 32
  let idx2 := d / 2 ^ 32
  let m := m4 / 2
  (idx1 * m / 2 ^ 32, idx2 * m / 2 ^ 32 + m)

/-- `_buckets` on a table: digest the key, then fast-range reduce. -/
def buckets {K V : Type} (hash : K → Nat) (t : Table K V) (k : K) : Nat × Nat :=
  bucketPair t.m (hash k)

/-- `_indices`: the cell indices of bucket `bkt` (the source yields the
slot indices `bkt*b*2, bkt*b*2+2, ...`; divided by two these are
`bkt*b + j` for `j < b`). -/
def indicesOf (b bkt : Nat) : List Nat :=
  (List.range b).map fun j => bkt * b + j

/-- The key stored at cell `i`, if occupied. -/
def cellKey {K V : Type} (d : List (Option (K × V))) (i : Nat) : Option K :=
  (cellAt d i).map Prod.fst

/-- The scan loop of `_search` over a list of cell indices: return the
value of the first cell whose key equals `k`. -/
def searchFrom {K V : Type} [DecidableEq K] (d : List (Option (K × V))) (k : K) :
    List Nat → Option V
  | [] => none
  | i :: is =>
    match cellAt d i with
    | some kv => if kv.1 = k then some kv.2 else searchFrom d k is
    | none => searchFrom d k is

/-- `_search`: scan one bucket for `k`. -/
def searchB {K V : Type} [DecidableEq K] (d : List (Option (K × V))) (b bkt : Nat) (k : K) :
    Option V :=
  searchFrom d k (indicesOf b bkt)

/-- First index (among the given cell indices) whose cell holds key `k` —
the first loop of `_upsert` / the loop of `_remove`. -/
def findKeyIdx {K V : Type} [DecidableEq K] (d : List (Option (K × V))) (k : K) :
    List Nat → Option Nat
  | [] => none
  | i :: is =>
    match cellAt d i with
    | some kv => if kv.1 = k then some i else findKeyIdx d k is
    | none => findKeyIdx d k is

/-- First index (among the given cell indices) whose cell is free — the
second loop of `_upsert`. -/
def findEmptyIdx {K V : Type} (d : List (Option (K × V))) : List Nat → Option Nat
  | [] => none
  | i :: is =>
    match cellAt d i with
    | some _ => findEmptyIdx d is
    | none => some i

/-- `_upsert`: update the cell already holding `k` if any, otherwise take
the first free cell and bump `len`; `none` means the bucket is full. -/
def upsert {K V : Type} [DecidableEq K] (t : Table K V) (bkt : Nat) (k : K) (v : V) :
    Option (Table K V) :=
  match findKeyIdx t.data k (indicesOf t.b bkt) with
  | some i => some { t with data := setCell t.data i (some (k, v)) }
  | none =>
    match findEmptyIdx t.data (indicesOf t.b bkt) with
    | some i => some { t with data := setCell t.data i (some (k, v)), len := t.len + 1 }
    | none => none

/-- `_remove`: clear the cell holding `k` and decrement `len`; `none`
means `k` is not in this bucket (and the data is untouched). -/
def remove {K V : Type} [DecidableEq K] (t : Table K V) (bkt : Nat) (k : K) :
    Option (Table K V) :=
  match findKeyIdx t.data k (indicesOf t.b bkt) with
  | some i => some { t with data := setCell t.data i none, len := t.len - 1 }
  | none => none

/-- `__getitem__`: search `b1`, then `b2`; `none` is the raised `KeyError`. -/
def getitem {K V : Type} [DecidableEq K] (hash : K → Nat) (t : Table K V) (k : K) : Option V :=
  let bp := buckets hash t k
  match searchB t.data t.b bp.1 k with
  | some v => some v
  | none => searchB t.data t.b bp.2 k

/-- `__contains__` (inherited from MutableMapping, backed by `__getitem__`). -/
def contains {K V : Type} [DecidableEq K] (hash : K → Nat) (t : Table K V) (k : K) : Bool :=
  (getitem hash t k).isSome

/-- `__delitem__`: try `_remove` on `b1`, then `b2`; the Bool is `False`
exactly when the source raises `KeyError`, in which case the returned
table is the input (the failed scans write nothing). -/
def delitem {K V : Type} [DecidableEq K] (hash : K → Nat) (t : Table K V) (k : K) :
    Table K V × Bool :=
  let bp := buckets hash t k
  match remove t bp.1 k with
  | some t' => (t', true)
  | none =>
    match remove t bp.2 k with
    | some t' => (t', true)
    | none => (t, false)

/-- `__init__(m, b)`: `assert m % 2 == 0`, then `m*b` free cells and a
zero live count; `none` is the `AssertionError` on odd `m`.  (The source
never validates `b`.) -/
def initTable (K V : Type) [DecidableEq K] (m b : Nat) : Option (Table K V) :=
  if m % 2 = 0 then some { b := b, m := m, len := 0, data := List.replicate (m * b) none }
  else none

/-- `CYCLES`: the displacement search budget. -/
def CYCLES : Nat := 500

/-- Result of the bounded BFS of `_displace`: an eviction path whose head
cell is free, budget exhaustion after `CYCLES` dequeues, or the
IndexError of `popleft` on an empty deque. -/
inductive BfsOut
  | found : List Nat → BfsOut
  | exhausted : BfsOut
  | emptyQueue : BfsOut
deriving Repr, DecidableEq

/-- The `for _ in xrange(self.CYCLES)` loop of `_displace`: pop the first
path, inspect the cell at its most recent index; a free cell ends the
search, otherwise enqueue one extension per cell of the victim's other
candidate bucket.  Returns the outcome and the number of dequeues
performed.  (The source also asserts that the victim's current bucket is
one of its two candidates; `tgt` is computed exactly as
`b1 if b1 != bucket else b2`.) -/
def bfsLoop {K V : Type} (hash : K → Nat) (t : Table K V) :
    Nat → List (List Nat) → BfsOut × Nat
  | 0, _ => (BfsOut.exhausted, 0)
  | _ + 1, [] => (BfsOut.emptyQueue, 0)
  | n + 1, p :: rest =>
    let idx := p.headD 0
    match cellAt t.data idx with
    | none => (BfsOut.found p, 1)
    | some kv =>
      let bp := buckets hash t kv.1
      let bucket := idx / t.b
      let tgt := if bp.1 ≠ bucket then bp.1 else bp.2
      let r := bfsLoop hash t n (rest ++ (indicesOf t.b tgt).map fun nxt => nxt :: p)
      (r.1, r.2 + 1)

/-- `_migrate`: pop the free cell index, shift each victim one step along
the path, then write the pending pair into the far end.  The path is
stored in pop order (most recent index first). -/
def migrate {K V : Type} (k : K) (v : V) :
    List (Option (K × V)) → List Nat → List (Option (K × V))
  | d, [] => d
  | d, [idx] => setCell d idx (some (k, v))
  | d, idx :: nxt :: rest => migrate k v (setCell d idx (cellAt d nxt)) (nxt :: rest)

/-- The first half of `_rehash`: double `m`, reset `len`, allocate a
fresh free cell array of the doubled size. -/
def grow {K V : Type} (t : Table K V) : Table K V :=
  { t with m := 2 * t.m, len := 0, data := List.replicate (2 * t.m * t.b) none }

/-- The re-insertion loop of `_rehash`: `self[key] = val` for every
occupied cell of the old array, in cell order, where `put` is the insert
operation being used (it threads the failure of nested rehashes). -/
def reinsertList {K V : Type} (put : Table K V → K → V → Option (Table K V)) :
    Table K V → List (K × V) → Option (Table K V)
  | acc, [] => some acc
  | acc, kv :: rest =>
    match put acc kv.1 kv.2 with
    | some acc2 => reinsertList put acc2 rest
    | none => none

/-- The BFS seed of `_displace`: one single-cell path per cell of `b1`
and of `b2`, in deque order. -/
def seedOf {K V : Type} (t : Table K V) (b1 b2 : Nat) : List (List Nat) :=
  (indicesOf t.b b1 ++ indicesOf t.b b2).map fun i => [i]

/-- `_displace`, parameterised by the `put` used for the post-rehash
retry (`self[key] = val`): run the bounded BFS; migrate on success;
on budget exhaustion rehash and retry the pending pair. -/
def displaceWith {K V : Type} (hash : K → Nat)
    (put : Table K V → K → V → Option (Table K V))
    (t : Table K V) (b1 b2 : Nat) (k : K) (v : V) : Option (Table K V) :=
  match (bfsLoop hash t CYCLES (seedOf t b1 b2)).1 with
  | BfsOut.found p => some { t with data := migrate k v t.data p, len := t.len + 1 }
  | BfsOut.emptyQueue => none
  | BfsOut.exhausted =>
    match reinsertList put (grow t) (pairsList t.data) with
    | some t2 => put t2 k v
    | none => none

/-- The body of `__setitem__` given the `put` used for nested rehash
re-inserts and retries: upsert into `b1`, then `b2`, else displace. -/
def setitemStep {K V : Type} [DecidableEq K] (hash : K → Nat)
    (put : Table K V → K → V → Option (Table K V))
    (t : Table K V) (k : K) (v : V) : Option (Table K V) :=
  let bp := buckets hash t k
  match upsert t bp.1 k v with
  | some t' => some t'
  | none =>
    match upsert t bp.2 k v with
    | some t' => some t'
    | none => displaceWith hash put t bp.1 bp.2 k v

/-- `__setitem__` with fuel bounding the depth of rehash rounds (the
source has no such bound; `none` at fuel 0 stands for a computation that
would need one more rehash round). -/
def setitem {K V : Type} [DecidableEq K] (hash : K → Nat) :
    Nat → Table K V → K → V → Option (Table K V)
  | 0 => setitemStep hash fun _ _ _ => none
  | fuel + 1 => setitemStep hash (setitem hash fuel)

/-- The `put` that `setitem` at the given fuel hands to nested calls. -/
def retryOf {K V : Type} [DecidableEq K] (hash : K → Nat) :
    Nat → Table K V → K → V → Option (Table K V)
  | 0 => fun _ _ _ => none
  | fuel + 1 => setitem hash fuel

/-- `_displace` at a given fuel. -/
def displace {K V : Type} [DecidableEq K] (hash : K → Nat) (fuel : Nat)
    (t : Table K V) (b1 b2 : Nat) (k : K) (v : V) : Option (Table K V) :=
  displaceWith hash (retryOf hash fuel) t b1 b2 k v

/-- `_rehash` at a given fuel: grow, then re-insert every occupied cell
through the ordinary put path. -/
def rehash {K V : Type} [DecidableEq K] (hash : K → Nat) (fuel : Nat) (t : Table K V) :
    Option (Table K V) :=
  reinsertList (setitem hash fuel) (grow t) (pairsList t.data)

theorem setitem_eq {K V : Type} [DecidableEq K] (hash : K → Nat) (fuel : Nat) :
    setitem (K := K) (V := V) hash fuel = setitemStep hash (retryOf hash fuel) := by
  cases fuel <;> rfl

/-- `2 <= M` and `M` even give a positive half `m = M/2`. -/
theorem half_pos {M : Nat} (hM : M % 2 = 0) (h2 : 2 ≤ M) : 0 < M / 2 := by
  omega

theorem bucketPair_fst_lt (M d : Nat) (h2 : 2 ≤ M) :
    (bucketPair M d).1 < M / 2 := by
  have hm : 0 < M / 2 := by omega
  have hlt : d % 2 ^ 32 < 2 ^ 32 := Nat.mod_lt _ (by norm_num)
  have : d % 2 ^ 32 * (M / 2) < 2 ^ 32 * (M / 2) :=
    Nat.mul_lt_mul_of_lt_of_le hlt (Nat.le_refl _) hm
  have := Nat.div_lt_of_lt_mul (by
    calc d % 2 ^ 32 * (M / 2) < 2 ^ 32 * (M / 2) := this
    _ = 2 ^ 32 * (M / 2) := rfl)
  simpa [bucketPair] using this

theorem bucketPair_snd_bounds (M d : Nat) (hM : M % 2 = 0) (h2 : 2 ≤ M)
    (hd : d < 2 ^ 64) :
    M / 2 ≤ (bucketPair M d).2 ∧ (bucketPair M d).2 < M := by
  have hm : 0 < M / 2 := by omega
  have hhi : d / 2 ^ 32 < 2 ^ 32 := by
    have : d < 2 ^ 32 * 2 ^ 32 := by norm_num at hd ⊢; omega
    exact Nat.div_lt_of_lt_mul this
  have hq : d / 2 ^ 32 * (M / 2) < 2 ^ 32 * (M / 2) :=
    Nat.mul_lt_mul_of_lt_of_le hhi (Nat.le_refl _) hm
  have hq2 : d / 2 ^ 32 * (M / 2) / 2 ^ 32 < M / 2 := Nat.div_lt_of_lt_mul hq
  constructor
  · simp [bucketPair]
  · have : d / 2 ^ 32 * (M / 2) / 2 ^ 32 + M / 2 < M / 2 + M / 2 := by omega
    have hMM : M / 2 + M / 2 = M := by omega
    simpa [bucketPair, hMM] using this

/-- Claim C4: for every 64-bit digest and every even bucket count
`M >= 2`, `_buckets` returns `b1` in the lower half `[0, M/2)` and `b2`
in the upper half `[M/2, M)`, so the two candidate buckets of a key are
always distinct. -/
theorem buckets_halves (M d : Nat) (hM : M % 2 = 0) (h2 : 2 ≤ M) (hd : d < 2 ^ 64) :
    (bucketPair M d).1 < M / 2 ∧ M / 2 ≤ (bucketPair M d).2 ∧
      (bucketPair M d).2 < M ∧ (bucketPair M d).1 ≠ (bucketPair M d).2 := by
  have h1 := bucketPair_fst_lt M d h2
  have h2' := bucketPair_snd_bounds M d hM h2 hd
  exact ⟨h1, h2'.1, h2'.2, by omega⟩

/-- Witness for C4 at `M = 4` and a concrete digest. -/
theorem buckets_halves_witness :
    (bucketPair 4 (2 ^ 63 + 2 ^ 31)).1 < 4 / 2 ∧ 4 / 2 ≤ (bucketPair 4 (2 ^ 63 + 2 ^ 31)).2 ∧
      (bucketPair 4 (2 ^ 63 + 2 ^ 31)).2 < 4 ∧
      (bucketPair 4 (2 ^ 63 + 2 ^ 31)).1 ≠ (bucketPair 4 (2 ^ 63 + 2 ^ 31)).2 :=
  buckets_halves 4 (2 ^ 63 + 2 ^ 31) (by norm_num) (by norm_num) (by norm_num)

/-!
A concrete run exhibiting the duplicate-key behaviour of `_upsert`.

With `m = 4`, `b = 2` the digest below sends each key to candidate
buckets `(x, y)` with `x` in the lower half `{0, 1}` and `y` in the
upper half `{2, 3}` (`dg x y` realises exactly those buckets under the
fast-range reduction).  The run: fill bucket 0 with keys 1, 2, fill
bucket 1 with keys 3, 4, insert key 0 (candidates (0, 2); bucket 0 is
full, so it lands in bucket 2), fill bucket 3 with keys 5, 6, erase
key 2 (freeing a cell of bucket 0), then put key 0 again: `_upsert`
finds the free cell of bucket 0 before ever looking at bucket 2, so
key 0 now occupies two cells.  A final insert of key 7 (candidates
(0, 3), both full) triggers `_displace`, whose eviction path moves the
fresh copy of key 0 from bucket 0 to bucket 2 behind the stale copy. -/

/-- A 64-bit digest whose fast-range buckets at `m = 4` are `(x, y)`. -/
def dg (x y : Nat) : Nat := (y - 2) * 2 ^ 63 + x * 2 ^ 31

/-- Digests for the keys of the concrete run (buckets at `m = 4` in the
comments). -/
def exHash (k : Nat) : Nat :=
  match k with
  | 0 => dg 0 2  -- buckets (0, 2)
  | 1 => dg 0 3  -- buckets (0, 3)
  | 2 => dg 0 2  -- buckets (0, 2)
  | 3 => dg 1 2  -- buckets (1, 2)
  | 4 => dg 1 3  -- buckets (1, 3)
  | 5 => dg 1 3  -- buckets (1, 3)
  | 6 => dg 1 3  -- buckets (1, 3)
  | _ => dg 0 3  -- buckets (0, 3)

/-- One `put` of the concrete run (fuel 1; no rehash is ever needed). -/
def put1 (t : Table Nat Nat) (k v : Nat) : Option (Table Nat Nat) :=
  setitem exHash 1 t k v

/-- Fresh table of the concrete run: `new(m := 4, b := 2)`. -/
def r0 : Option (Table Nat Nat) := initTable Nat Nat 4 2

/-- After `put 1 10; put 2 20; put 3 30; put 4 40; put 0 50; put 5 60;
put 6 70`: buckets 0, 1, 3 full, key 0 resident in bucket 2. -/
def r7 : Option (Table Nat Nat) :=
  r0 >>= fun t => put1 t 1 10 >>= fun t => put1 t 2 20 >>= fun t => put1 t 3 30 >>=
    fun t => put1 t 4 40 >>= fun t => put1 t 0 50 >>= fun t => put1 t 5 60 >>=
    fun t => put1 t 6 70

/-- After `erase 2`: one cell of bucket 0 is free again. -/
def r8 : Option (Table Nat Nat) := r7.map fun t => (delitem exHash t 2).1

/-- After `put 0 51`: key 0 now occupies two cells (bucket 0 and bucket 2). -/
def r9 : Option (Table Nat Nat) := r8 >>= fun t => put1 t 0 51

/-- After `put 7 80`: the displacement moved the fresh copy of key 0
into bucket 2 behind the stale one. -/
def r10 : Option (Table Nat Nat) := r9 >>= fun t => put1 t 7 80

/-- The table at `r8`, as a literal. -/
def exT8 : Table Nat Nat :=
  { b := 2, m := 4, len := 6,
    data := [some (1, 10), none, some (3, 30), some (4, 40),
             some (0, 50), none, some (5, 60), some (6, 70)] }

/-- The table at `r9`, as a literal: key 0 in cells 1 and 4. -/
def exT9 : Table Nat Nat :=
  { b := 2, m := 4, len := 7,
    data := [some (1, 10), some (0, 51), some (3, 30), some (4, 40),
             some (0, 50), none, some (5, 60), some (6, 70)] }

/-- The table at `r10`, as a literal: the eviction path moved the fresh
copy of key 0 to cell 5, behind the stale copy at cell 4. -/
def exT10 : Table Nat Nat :=
  { b := 2, m := 4, len := 8,
    data := [some (1, 10), some (7, 80), some (3, 30), some (4, 40),
             some (0, 50), some (0, 51), some (5, 60), some (6, 70)] }

set_option maxHeartbeats 1000000 in
theorem r8_eq : r8 = some exT8 := by decide

theorem r9_eq : r9 = some exT9 := by
  show r8 >>= _ = _
  rw [r8_eq]; decide

set_option maxHeartbeats 1000000 in
theorem r10_eq : r10 = some exT10 := by
  show r9 >>= _ = _
  rw [r9_eq]; decide

/-- Claim C1 (refuted on the code): in the concrete reachable run, the
last value put for the live key 0 is 51, yet after `put 7 80` (which
triggers a displacement that moves the fresh copy of key 0 behind its
stale duplicate) `get 0` returns the stale 50. -/
theorem bug_get_returns_stale :
    (r9 >>= fun t => getitem exHash t 0) = some 51 ∧
      (r10 >>= fun t => getitem exHash t 0) = some 50 := by
  rw [r9_eq, r10_eq]
  exact ⟨by decide, by decide⟩

/-- Claim C2 (refuted on the code): before the second `put 0`, key 0
occupies exactly one cell; `put 0 51` finds the free cell of bucket 0
before looking for key 0 in bucket 2, so afterwards two occupied cells
hold key 0 — invariant 4 is violated in a reachable state. -/
theorem bug_duplicate_key :
    (r8.map fun t => keyCount t.data 0) = some 1 ∧
      (r9.map fun t => keyCount t.data 0) = some 2 := by
  rw [r8_eq, r9_eq]
  exact ⟨by decide, by decide⟩

/-- Claim C3 (refuted on the code): starting from the reachable state
`r8` (len 6, key 0 resident only in bucket 2), executing `put 0 51`
followed by `erase 0` leaves `len` at 6 as claimed, but `contains 0` is
still true: the erase removed only the duplicate in bucket 0. -/
theorem bug_put_erase_contains :
    (r8 >>= fun t8 => put1 t8 0 51 >>= fun t9 =>
        some (contains exHash (delitem exHash t9 0).1 0, (delitem exHash t9 0).1.len, t8.len))
      = some (true, 6, 6) := by
  rw [r8_eq]; decide

/-- Claim C8 (refuted on the code): rehashing the reachable state `r10`
(which holds the pair (0, 50) and its duplicate (0, 51), len 8) doubles
`m` but re-inserting through the ordinary put path collapses the
duplicate: the pair (0, 50) is lost and `len` drops to 7. -/
theorem bug_rehash_shrinks :
    (r10.map fun t => (decide ((0, 50) ∈ pairsList t.data), t.m, t.len)) = some (true, 4, 8) ∧
      ((r10 >>= fun t => rehash exHash 0 t).map fun t =>
        (decide ((0, 50) ∈ pairsList t.data), t.m, t.len)) = some (false, 8, 7) := by
  rw [r10_eq]
  exact ⟨by decide, by decide⟩

/-- Claim C6, counterexample: construction with the non-positive
cells-per-bucket count `b = 0` does not fail — the source only asserts
`m % 2 == 0` and never validates `b`. -/
theorem initTable_zero_b_succeeds :
    initTable Nat Nat 2 0 = some { b := 0, m := 2, len := 0, data := [] } := by rfl

/-- Claim C6, amended: construction fails (assertion error) for every
odd bucket count `m`; `b` is not validated, and for every even `m` and
any `b` construction succeeds with `len` 0 and `m * b` free cells. -/
theorem initTable_spec (K V : Type) [DecidableEq K] (m b : Nat) :
    (m % 2 ≠ 0 → initTable K V m b = none) ∧
      (m % 2 = 0 → initTable K V m b =
        some { b := b, m := m, len := 0, data := List.replicate (m * b) none }) := by
  constructor <;> intro h <;> simp [initTable, h]

/-- Witness for the amended C6 at odd `m = 3` and at `m = 2`, `b = 3`. -/
theorem initTable_spec_witness :
    initTable Nat Nat 3 4 = none ∧
      initTable Nat Nat 2 3 = some { b := 3, m := 2, len := 0, data := List.replicate 6 none } :=
  ⟨(initTable_spec Nat Nat 3 4).1 (by decide), (initTable_spec Nat Nat 2 3).2 (by decide)⟩

/-! Basic facts about the cell array primitives. -/

section ListLemmas

variable {K V : Type}

theorem length_setCell (d : List (Option (K × V))) (i : Nat) (c : Option (K × V)) :
    (setCell d i c).length = d.length := by
  induction d generalizing i with
  | nil => rfl
  | cons x d ih => cases i <;> simp [setCell, ih]

theorem cellAt_setCell_self (d : List (Option (K × V))) (i : Nat) (c : Option (K × V))
    (h : i < d.length) : cellAt (setCell d i c) i = c := by
  induction d generalizing i with
  | nil => simp at h
  | cons x d ih =>
    cases i with
    | zero => rfl
    | succ n => simpa [setCell, cellAt] using ih n (by simpa using h)

theorem cellAt_setCell_ne (d : List (Option (K × V))) (i j : Nat) (c : Option (K × V))
    (h : j ≠ i) : cellAt (setCell d i c) j = cellAt d j := by
  induction d generalizing i j with
  | nil => rfl
  | cons x d ih =>
    cases i with
    | zero => cases j with
      | zero => exact absurd rfl h
      | succ n => rfl
    | succ n => cases j with
      | zero => rfl
      | succ n' => simpa [setCell, cellAt] using ih n n' (by omega)

theorem cellAt_lt_length (d : List (Option (K × V))) (i : Nat) (kv : K × V)
    (h : cellAt d i = some kv) : i < d.length := by
  induction d generalizing i with
  | nil => simp [cellAt] at h
  | cons x d ih =>
    cases i with
    | zero => simp
    | succ n => simpa using Nat.succ_lt_succ (ih n h)

theorem occCount_replicate (n : Nat) :
    occCount (List.replicate n (none : Option (K × V))) = 0 := by
  induction n with
  | zero => rfl
  | succ n ih => simpa [List.replicate, occCount] using ih

theorem occCount_setCell_some_of_none (d : List (Option (K × V))) (i : Nat) (kv : K × V)
    (hlt : i < d.length) (h : cellAt d i = none) :
    occCount (setCell d i (some kv)) = occCount d + 1 := by
  induction d generalizing i with
  | nil => simp at hlt
  | cons x d ih =>
    cases i with
    | zero => cases x with
      | some y => simp [cellAt] at h
      | none => simp [setCell, occCount]
    | succ n =>
      have := ih n (by simpa using hlt) h
      cases x <;> simp [setCell, occCount, this]

theorem occCount_setCell_some_of_some (d : List (Option (K × V))) (i : Nat) (kv kv0 : K × V)
    (h : cellAt d i = some kv0) :
    occCount (setCell d i (some kv)) = occCount d := by
  induction d generalizing i with
  | nil => simp [cellAt] at h
  | cons x d ih =>
    cases i with
    | zero => cases x with
      | some y => simp [setCell, occCount]
      | none => simp [cellAt] at h
    | succ n =>
      have := ih n h
      cases x <;> simp [setCell, occCount, this]

theorem occCount_setCell_none_of_some (d : List (Option (K × V))) (i : Nat) (kv0 : K × V)
    (h : cellAt d i = some kv0) :
    occCount (setCell d i none) + 1 = occCount d := by
  induction d generalizing i with
  | nil => simp [cellAt] at h
  | cons x d ih =>
    cases i with
    | zero => cases x with
      | some y => simp [setCell, occCount]
      | none => simp [cellAt] at h
    | succ n =>
      have := ih n h
      cases x <;> simp [setCell, occCount] <;> omega

theorem length_iterKeys (d : List (Option (K × V))) :
    (iterKeys d).length = occCount d := by
  induction d with
  | nil => rfl
  | cons x d ih => cases x <;> simp [iterKeys, occCount, ih]

end ListLemmas

section KeyCountLemmas

variable {K V : Type} [DecidableEq K]

theorem keyCount_nil (k : K) : keyCount ([] : List (Option (K × V))) k = 0 := rfl

theorem keyCount_zero_cellAt {d : List (Option (K × V))} {k : K}
    (h : keyCount d k = 0) {i : Nat} {kv : K × V} (hc : cellAt d i = some kv) :
    kv.1 ≠ k := by
  induction d generalizing i with
  | nil => simp [cellAt] at hc
  | cons x d ih =>
    cases i with
    | zero =>
      cases x with
      | none => simp [cellAt] at hc
      | some y =>
        simp only [cellAt] at hc
        obtain rfl : y = kv := by simpa using hc
        intro hk
        simp [keyCount, lookupAll, hk] at h
    | succ n =>
      refine ih ?_ hc
      cases x with
      | none => simpa [keyCount, lookupAll] using h
      | some y =>
        by_cases hy : y.1 = k
        · simp [keyCount, lookupAll, hy] at h
        · simpa [keyCount, lookupAll, hy] using h

theorem keyCount_zero_setCell {d : List (Option (K × V))} {k : K}
    (h : keyCount d k = 0) {c : Option (K × V)}
    (hc : ∀ kv, c = some kv → kv.1 ≠ k) (i : Nat) :
    keyCount (setCell d i c) k = 0 := by
  induction d generalizing i with
  | nil => simpa [setCell] using h
  | cons x d ih =>
    have hx : ∀ y : K × V, x = some y → y.1 ≠ k := by
      intro y hy
      exact keyCount_zero_cellAt h (i := 0) (by simp [hy, cellAt])
    have hd : keyCount d k = 0 := by
      cases x with
      | none => simpa [keyCount, lookupAll] using h
      | some y => simpa [keyCount, lookupAll, hx y rfl] using h
    cases i with
    | zero =>
      cases c with
      | none => simpa [setCell, keyCount, lookupAll] using hd
      | some y => simpa [setCell, keyCount, lookupAll, hc y rfl] using hd
    | succ n =>
      have := ih hd n
      cases x with
      | none => simpa [setCell, keyCount, lookupAll] using this
      | some y => simpa [setCell, keyCount, lookupAll, hx y rfl] using this

theorem lookupAll_eq_nil_of_zero {d : List (Option (K × V))} {k : K}
    (h : keyCount d k = 0) : lookupAll d k = [] :=
  List.length_eq_zero.mp h

theorem lookupAll_setCell_some {d : List (Option (K × V))} {k : K} (v : V)
    (h : keyCount d k = 0) {i : Nat} (hlt : i < d.length) :
    lookupAll (setCell d i (some (k, v))) k = [v] := by
  induction d generalizing i with
  | nil => simp at hlt
  | cons x d ih =>
    have hx : ∀ y : K × V, x = some y → y.1 ≠ k := by
      intro y hy
      exact keyCount_zero_cellAt h (i := 0) (by simp [hy, cellAt])
    have hd : keyCount d k = 0 := by
      cases x with
      | none => simpa [keyCount, lookupAll] using h
      | some y => simpa [keyCount, lookupAll, hx y rfl] using h
    cases i with
    | zero => simp [setCell, lookupAll, lookupAll_eq_nil_of_zero hd]
    | succ n =>
      have := ih hd (by simpa using hlt)
      cases x with
      | none => simpa [setCell, lookupAll] using this
      | some y => simpa [setCell, lookupAll, hx y rfl] using this

theorem keyCount_pos_exists {d : List (Option (K × V))} {k : K}
    (h : keyCount d k ≠ 0) : ∃ i v0, cellAt d i = some (k, v0) := by
  induction d with
  | nil => simp [keyCount, lookupAll] at h
  | cons x d ih =>
    cases x with
    | none =>
      obtain ⟨i, v0, hi⟩ := ih (by simpa [keyCount, lookupAll] using h)
      exact ⟨i + 1, v0, hi⟩
    | some y =>
      by_cases hy : y.1 = k
      · exact ⟨0, y.2, by simp [cellAt, ← hy]⟩
      · obtain ⟨i, v0, hi⟩ := ih (by simpa [keyCount, lookupAll, hy] using h)
        exact ⟨i + 1, v0, hi⟩

theorem keyCount_replicate (n : Nat) (k : K) :
    keyCount (List.replicate n (none : Option (K × V))) k = 0 := by
  induction n with
  | zero => rfl
  | succ n ih => simpa [List.replicate, keyCount, lookupAll] using ih

theorem pairsList_keys_ne {d : List (Option (K × V))} {k : K}
    (h : keyCount d k = 0) : ∀ kv ∈ pairsList d, kv.1 ≠ k := by
  induction d with
  | nil => simp [pairsList]
  | cons x d ih =>
    cases x with
    | none =>
      simpa [pairsList] using ih (by simpa [keyCount, lookupAll] using h)
    | some y =>
      have hy : y.1 ≠ k := keyCount_zero_cellAt h (i := 0) (by simp [cellAt])
      have hd : keyCount d k = 0 := by simpa [keyCount, lookupAll, hy] using h
      intro kv hkv
      rcases by simpa [pairsList] using hkv with rfl | hkv'
      · exact hy
      · exact ih hd kv hkv'

end KeyCountLemmas

/-! Bucket index ranges and scan-loop specifications. -/

/-- Well-formedness of the table geometry: the cell array has one cell
per bucket slot, and the bucket count is even and at least 2 (the
constructor's assertion plus a non-degenerate size; `_rehash` doubles
`m`, preserving all three). -/
def StructWF {K V : Type} (t : Table K V) : Prop :=
  t.data.length = t.m * t.b ∧ t.m % 2 = 0 ∧ 2 ≤ t.m

instance {K V : Type} (t : Table K V) : Decidable (StructWF t) := by
  unfold StructWF; infer_instance

section Scans

variable {K V : Type} [DecidableEq K]

theorem mem_indicesOf {b bkt i : Nat} :
    i ∈ indicesOf b bkt ↔ ∃ j, j < b ∧ i = bkt * b + j := by
  simp only [indicesOf, List.mem_map, List.mem_range]
  constructor
  · rintro ⟨j, hj, rfl⟩; exact ⟨j, hj, rfl⟩
  · rintro ⟨j, hj, rfl⟩; exact ⟨j, hj, rfl⟩

theorem mem_indicesOf_lt {b bkt m i : Nat} (hbkt : bkt < m) (hi : i ∈ indicesOf b bkt) :
    i < m * b := by
  obtain ⟨j, hj, rfl⟩ := mem_indicesOf.mp hi
  calc bkt * b + j < bkt * b + b := by omega
  _ = (bkt + 1) * b := by ring
  _ ≤ m * b := Nat.mul_le_mul_right b hbkt

theorem length_indicesOf (b bkt : Nat) : (indicesOf b bkt).length = b := by
  simp [indicesOf]

theorem self_mem_indicesOf {b i : Nat} (hb : 0 < b) :
    i ∈ indicesOf b (i / b) := by
  refine mem_indicesOf.mpr ⟨i % b, Nat.mod_lt _ hb, ?_⟩
  conv_lhs => rw [← Nat.div_add_mod i b]
  ring

theorem findKeyIdx_spec {d : List (Option (K × V))} {k : K} {is : List Nat} {i : Nat}
    (h : findKeyIdx d k is = some i) :
    i ∈ is ∧ ∃ v0, cellAt d i = some (k, v0) := by
  induction is with
  | nil => simp [findKeyIdx] at h
  | cons j js ih =>
    rcases hc : cellAt d j with _ | kv
    · simp only [findKeyIdx, hc] at h
      have := ih h
      exact ⟨List.mem_cons_of_mem _ this.1, this.2⟩
    · simp only [findKeyIdx, hc] at h
      by_cases hk : kv.1 = k
      · simp only [hk, if_pos rfl] at h
        obtain rfl : j = i := by simpa using h
        refine ⟨List.mem_cons_self _ _, kv.2, ?_⟩
        rw [hc, ← hk]
      · simp only [if_neg hk] at h
        have := ih h
        exact ⟨List.mem_cons_of_mem _ this.1, this.2⟩

theorem findKeyIdx_eq_none {d : List (Option (K × V))} {k : K} {is : List Nat}
    (h : ∀ i ∈ is, ∀ kv : K × V, cellAt d i = some kv → kv.1 ≠ k) :
    findKeyIdx d k is = none := by
  induction is with
  | nil => rfl
  | cons j js ih =>
    rcases hc : cellAt d j with _ | kv
    · simp only [findKeyIdx, hc]
      exact ih fun i hi => h i (List.mem_cons_of_mem _ hi)
    · have hk : kv.1 ≠ k := h j (List.mem_cons_self _ _) kv hc
      simp only [findKeyIdx, hc, if_neg hk]
      exact ih fun i hi => h i (List.mem_cons_of_mem _ hi)

theorem findKeyIdx_none_spec {d : List (Option (K × V))} {k : K} {is : List Nat}
    (h : findKeyIdx d k is = none) :
    ∀ i ∈ is, ∀ kv : K × V, cellAt d i = some kv → kv.1 ≠ k := by
  induction is with
  | nil => simp
  | cons j js ih =>
    intro i hi kv hc hk
    rcases hcj : cellAt d j with _ | kvj
    · simp only [findKeyIdx, hcj] at h
      rcases List.mem_cons.mp hi with rfl | hi'
      · rw [hcj] at hc; exact Option.noConfusion hc
      · exact ih h i hi' kv hc hk
    · simp only [findKeyIdx, hcj] at h
      by_cases hkj : kvj.1 = k
      · simp [hkj] at h
      · simp only [if_neg hkj] at h
        rcases List.mem_cons.mp hi with rfl | hi'
        · rw [hcj] at hc
          obtain rfl : kvj = kv := by simpa using hc
          exact hkj hk
        · exact ih h i hi' kv hc hk

omit [DecidableEq K] in
theorem findEmptyIdx_spec {d : List (Option (K × V))} {is : List Nat} {i : Nat}
    (h : findEmptyIdx d is = some i) :
    i ∈ is ∧ cellAt d i = none := by
  induction is with
  | nil => simp [findEmptyIdx] at h
  | cons j js ih =>
    rcases hc : cellAt d j with _ | kv
    · simp only [findEmptyIdx, hc] at h
      obtain rfl : j = i := by simpa using h
      exact ⟨List.mem_cons_self _ _, hc⟩
    · simp only [findEmptyIdx, hc] at h
      have := ih h
      exact ⟨List.mem_cons_of_mem _ this.1, this.2⟩

theorem searchFrom_eq_none {d : List (Option (K × V))} {k : K} {is : List Nat}
    (h : ∀ i ∈ is, ∀ kv : K × V, cellAt d i = some kv → kv.1 ≠ k) :
    searchFrom d k is = none := by
  induction is with
  | nil => rfl
  | cons j js ih =>
    rcases hc : cellAt d j with _ | kv
    · simp only [searchFrom, hc]
      exact ih fun i hi => h i (List.mem_cons_of_mem _ hi)
    · have hk : kv.1 ≠ k := h j (List.mem_cons_self _ _) kv hc
      simp only [searchFrom, hc, if_neg hk]
      exact ih fun i hi => h i (List.mem_cons_of_mem _ hi)

theorem searchFrom_ne_none {d : List (Option (K × V))} {k : K} {is : List Nat}
    {i : Nat} {v0 : V} (hi : i ∈ is) (hc : cellAt d i = some (k, v0)) :
    searchFrom d k is ≠ none := by
  induction is with
  | nil => simp at hi
  | cons j js ih =>
    rcases List.mem_cons.mp hi with rfl | hi'
    · simp [searchFrom, hc]
    · rcases hcj : cellAt d j with _ | kvj
      · simp only [searchFrom, hcj]
        exact ih hi'
      · by_cases hkj : kvj.1 = k
        · simp [searchFrom, hcj, hkj]
        · simp only [searchFrom, hcj, if_neg hkj]
          exact ih hi'

theorem searchFrom_none_spec {d : List (Option (K × V))} {k : K} {is : List Nat}
    (h : searchFrom d k is = none) :
    ∀ i ∈ is, ∀ kv : K × V, cellAt d i = some kv → kv.1 ≠ k := by
  induction is with
  | nil => simp
  | cons j js ih =>
    intro i hi kv hc hk
    rcases hcj : cellAt d j with _ | kvj
    · simp only [searchFrom, hcj] at h
      rcases List.mem_cons.mp hi with rfl | hi'
      · rw [hcj] at hc; exact Option.noConfusion hc
      · exact ih h i hi' kv hc hk
    · simp only [searchFrom, hcj] at h
      by_cases hkj : kvj.1 = k
      · simp [hkj] at h
      · simp only [if_neg hkj] at h
        rcases List.mem_cons.mp hi with rfl | hi'
        · rw [hcj] at hc
          obtain rfl : kvj = kv := by simpa using hc
          exact hkj hk
        · exact ih h i hi' kv hc hk

omit [DecidableEq K] in
theorem buckets_lt {hash : K → Nat} {t : Table K V} (hh : ∀ x, hash x < 2 ^ 64)
    (hm : t.m % 2 = 0) (h2 : 2 ≤ t.m) (k : K) :
    (buckets hash t k).1 < t.m ∧ (buckets hash t k).2 < t.m := by
  have h1 := bucketPair_fst_lt t.m (hash k) h2
  have h2' := bucketPair_snd_bounds t.m (hash k) hm h2 (hh k)
  exact ⟨by have := Nat.div_le_self t.m 2; simpa [buckets] using Nat.lt_of_lt_of_le h1 (by omega),
    by simpa [buckets] using h2'.2⟩

end Scans

/-! The bounded breadth-first search of the displacement engine. -/

section Bfs

variable {K V : Type}

theorem bfsLoop_count_le (hash : K → Nat) (t : Table K V) :
    ∀ (n : Nat) (q : List (List Nat)), (bfsLoop hash t n q).2 ≤ n := by
  intro n
  induction n with
  | zero => intro q; simp [bfsLoop]
  | succ n ih =>
    intro q
    cases q with
    | nil => simp [bfsLoop]
    | cons p rest =>
      rw [bfsLoop]
      rcases hc : cellAt t.data (p.headD 0) with _ | kv
      · simp [hc]
      · simp only [hc]
        have := ih (rest ++ (indicesOf t.b
          (if (buckets hash t kv.1).1 ≠ p.headD 0 / t.b then (buckets hash t kv.1).1
           else (buckets hash t kv.1).2)).map fun nxt => nxt :: p)
        omega

theorem bfsLoop_ne_emptyQueue (hash : K → Nat) (t : Table K V) (hb : 1 ≤ t.b) :
    ∀ (n : Nat) (q : List (List Nat)), q ≠ [] →
      (bfsLoop hash t n q).1 ≠ BfsOut.emptyQueue := by
  intro n
  induction n with
  | zero => intro q _; simp [bfsLoop]
  | succ n ih =>
    intro q hq
    cases q with
    | nil => exact absurd rfl hq
    | cons p rest =>
      rw [bfsLoop]
      rcases hc : cellAt t.data (p.headD 0) with _ | kv
      · simp [hc]
      · simp only [hc]
        refine ih _ ?_
        have : (rest ++ (indicesOf t.b
            (if (buckets hash t kv.1).1 ≠ p.headD 0 / t.b then (buckets hash t kv.1).1
             else (buckets hash t kv.1).2)).map fun nxt => nxt :: p).length =
            rest.length + t.b := by
          simp [length_indicesOf]
        intro hnil
        rw [hnil] at this
        simp at this
        omega

/-- The queue invariant maintained by `bfsLoop`: every queued path is
non-empty, all its cells are in range, and every cell except the most
recent one was occupied when the path was extended past it (the data is
not modified during the search, so it is still occupied). -/
def QueueOK {K V : Type} (t : Table K V) (q : List (List Nat)) : Prop :=
  ∀ p ∈ q, p ≠ [] ∧ (∀ j ∈ p, j < t.data.length) ∧
    ∀ j ∈ p.tail, (cellAt t.data j).isSome = true

theorem bfsLoop_found_spec (hash : K → Nat) (t : Table K V)
    (hh : ∀ x, hash x < 2 ^ 64) (hwf : StructWF t) :
    ∀ (n : Nat) (q : List (List Nat)) (p : List Nat), QueueOK t q →
      (bfsLoop hash t n q).1 = BfsOut.found p →
      p ≠ [] ∧ (∀ j ∈ p, j < t.data.length) ∧
        cellAt t.data (p.headD 0) = none ∧
        ∀ j ∈ p.tail, (cellAt t.data j).isSome = true := by
  intro n
  induction n with
  | zero => intro q p _ h; simp [bfsLoop] at h
  | succ n ih =>
    intro q p hq h
    cases q with
    | nil => simp [bfsLoop] at h
    | cons p0 rest =>
      rw [bfsLoop] at h
      rcases hc : cellAt t.data (p0.headD 0) with _ | kv
      · simp only [hc] at h
        obtain rfl : p0 = p := by simpa using h
        obtain ⟨hne, hrange, htail⟩ := hq p0 (List.mem_cons_self _ _)
        exact ⟨hne, hrange, hc, htail⟩
      · simp only [hc] at h
        obtain ⟨hne, hrange, htail⟩ := hq p0 (List.mem_cons_self _ _)
        refine ih _ _ ?_ h
        intro p' hp'
        rcases List.mem_append.mp hp' with hp' | hp'
        · exact hq p' (List.mem_cons_of_mem _ hp')
        · obtain ⟨nxt, hnxt, rfl⟩ := List.mem_map.mp hp'
          have htgt : (if (buckets hash t kv.1).1 ≠ p0.headD 0 / t.b
              then (buckets hash t kv.1).1 else (buckets hash t kv.1).2) < t.m := by
            rcases buckets_lt (t := t) hh hwf.2.1 hwf.2.2 kv.1 with ⟨h1, h2⟩
            split <;> assumption
          have hnxtlt : nxt < t.data.length := by
            rw [hwf.1]
            exact mem_indicesOf_lt htgt hnxt
          refine ⟨by simp, ?_, ?_⟩
          · intro j hj
            rcases List.mem_cons.mp hj with rfl | hj
            · exact hnxtlt
            · exact hrange j hj
          · intro j hj
            simp only [List.tail_cons] at hj
            rcases p0 with _ | ⟨h0, p0t⟩
            · exact absurd rfl hne
            · rcases List.mem_cons.mp hj with rfl | hj
              · simpa [cellAt] using congrArg Option.isSome hc
              · exact htail j hj

end Bfs

/-- Claim C10: with at least one cell per bucket, the BFS queue of
`_displace` is seeded with `2*b` single-cell paths and every
non-terminating dequeue enqueues `b` extensions, so no dequeue within
the budget ever finds the queue empty (the `popleft` never raises). -/
theorem displace_queue_never_empty {K V : Type} (hash : K → Nat) (t : Table K V)
    (b1 b2 : Nat) (hb : 1 ≤ t.b) :
    (seedOf t b1 b2).length = 2 * t.b ∧
      (bfsLoop hash t CYCLES (seedOf t b1 b2)).1 ≠ BfsOut.emptyQueue := by
  constructor
  · simp [seedOf, length_indicesOf]
    omega
  · refine bfsLoop_ne_emptyQueue hash t hb CYCLES _ ?_
    have : (seedOf t b1 b2).length = 2 * t.b := by
      simp [seedOf, length_indicesOf]; omega
    intro hnil
    rw [hnil] at this
    simp at this
    omega

/-- Witness for C10 on a concrete table (`exT8`, `b = 2`). -/
theorem displace_queue_never_empty_witness :
    (seedOf exT8 0 3).length = 2 * exT8.b ∧
      (bfsLoop exHash exT8 CYCLES (seedOf exT8 0 3)).1 ≠ BfsOut.emptyQueue :=
  displace_queue_never_empty exHash exT8 0 3 (by decide)

/-! Effects of `_migrate` on the cell array. -/

section Migrate

variable {K V : Type}

theorem migrate_length (k : K) (v : V) :
    ∀ (p : List Nat) (d : List (Option (K × V))), (migrate k v d p).length = d.length
  | [], _ => rfl
  | [idx], d => by rw [migrate]; exact length_setCell d idx _
  | idx :: nxt :: rest, d => by
    rw [migrate, migrate_length k v (nxt :: rest) _]
    exact length_setCell d idx _

theorem migrate_occ_all_some (k : K) (v : V) :
    ∀ (p : List Nat) (d : List (Option (K × V))),
      (∀ j ∈ p, (cellAt d j).isSome = true) →
      occCount (migrate k v d p) = occCount d
  | [], _, _ => rfl
  | [idx], d, h => by
    obtain ⟨kvi, hkvi⟩ := Option.isSome_iff_exists.mp (h idx (by simp))
    rw [migrate]
    exact occCount_setCell_some_of_some d idx _ kvi hkvi
  | idx :: nxt :: rest, d, h => by
    obtain ⟨kvn, hkvn⟩ := Option.isSome_iff_exists.mp (h nxt (by simp))
    obtain ⟨kvi, hkvi⟩ := Option.isSome_iff_exists.mp (h idx (by simp))
    have hocc : ∀ j ∈ nxt :: rest, (cellAt (setCell d idx (cellAt d nxt)) j).isSome = true := by
      intro j hj
      by_cases hji : j = idx
      · subst hji
        rw [cellAt_setCell_self d _ _ (cellAt_lt_length d _ kvi hkvi), hkvn]
        rfl
      · rw [cellAt_setCell_ne d idx j _ hji]
        exact h j (List.mem_cons_of_mem _ hj)
    rw [migrate, migrate_occ_all_some k v (nxt :: rest) _ hocc, hkvn,
      occCount_setCell_some_of_some d idx _ kvi hkvi]

theorem migrate_occ_found (k : K) (v : V) :
    ∀ (p : List Nat) (d : List (Option (K × V))),
      p ≠ [] → (∀ j ∈ p, j < d.length) →
      cellAt d (p.headD 0) = none →
      (∀ j ∈ p.tail, (cellAt d j).isSome = true) →
      occCount (migrate k v d p) = occCount d + 1
  | [], _, h, _, _, _ => absurd rfl h
  | [idx], d, _, hrange, hhead, _ => by
    rw [migrate]
    exact occCount_setCell_some_of_none d idx _ (hrange idx (by simp)) (by simpa using hhead)
  | idx :: nxt :: rest, d, _, hrange, hhead, htail => by
    have hnxt : (cellAt d nxt).isSome = true := htail nxt (by simp)
    obtain ⟨kvn, hkvn⟩ := Option.isSome_iff_exists.mp hnxt
    have hidxlt : idx < d.length := hrange idx (by simp)
    have hhead' : cellAt d idx = none := by simpa using hhead
    have hocc : ∀ j ∈ nxt :: rest, (cellAt (setCell d idx (cellAt d nxt)) j).isSome = true := by
      intro j hj
      by_cases hji : j = idx
      · subst hji
        rw [cellAt_setCell_self d _ _ hidxlt, hkvn]
        rfl
      · rw [cellAt_setCell_ne d idx j _ hji]
        rcases List.mem_cons.mp hj with rfl | hj'
        · exact hnxt
        · exact htail j (List.mem_cons_of_mem _ hj')
    rw [migrate, migrate_occ_all_some k v (nxt :: rest) _ hocc, hkvn,
      occCount_setCell_some_of_none d idx _ hidxlt hhead']

theorem migrate_keyCount_zero [DecidableEq K] (a : K) (w : V) (k : K) (hak : a ≠ k) :
    ∀ (p : List Nat) (d : List (Option (K × V))), keyCount d k = 0 →
      keyCount (migrate a w d p) k = 0
  | [], _, h => h
  | [idx], d, h => by
    rw [migrate]
    refine keyCount_zero_setCell h ?_ idx
    intro kv hkv
    obtain rfl : (a, w) = kv := by simpa using hkv
    exact hak
  | idx :: nxt :: rest, d, h => by
    rw [migrate]
    refine migrate_keyCount_zero a w k hak (nxt :: rest) _ ?_
    refine keyCount_zero_setCell h ?_ idx
    intro kv hkv
    exact keyCount_zero_cellAt h hkv

theorem migrate_lookupAll [DecidableEq K] (k : K) (v : V) :
    ∀ (p : List Nat) (d : List (Option (K × V))),
      p ≠ [] → (∀ j ∈ p, j < d.length) → keyCount d k = 0 →
      lookupAll (migrate k v d p) k = [v]
  | [], _, h, _, _ => absurd rfl h
  | [idx], d, _, hrange, hzero => by
    rw [migrate]
    exact lookupAll_setCell_some v hzero (hrange idx (by simp))
  | idx :: nxt :: rest, d, _, hrange, hzero => by
    rw [migrate]
    refine migrate_lookupAll k v (nxt :: rest) _ (by simp) ?_ ?_
    · intro j hj
      rw [length_setCell]
      exact hrange j (List.mem_cons_of_mem _ hj)
    · refine keyCount_zero_setCell hzero ?_ idx
      intro kv hkv
      exact keyCount_zero_cellAt hzero hkv

end Migrate

/-! Inversion principles for the mutating operations, and preservation
of the structural well-formedness `StructWF` along every `put` path. -/

section Preserve

variable {K V : Type} [DecidableEq K] {hash : K → Nat}

theorem upsert_cases {t t' : Table K V} {bkt : Nat} {k : K} {v : V}
    (h : upsert t bkt k v = some t') :
    (∃ i v0, cellAt t.data i = some (k, v0) ∧ i ∈ indicesOf t.b bkt ∧
      t' = { t with data := setCell t.data i (some (k, v)) }) ∨
    (∃ i, cellAt t.data i = none ∧ i ∈ indicesOf t.b bkt ∧
      t' = { t with data := setCell t.data i (some (k, v)), len := t.len + 1 }) := by
  unfold upsert at h
  rcases hfind : findKeyIdx t.data k (indicesOf t.b bkt) with _ | i
  · rw [hfind] at h
    rcases hempty : findEmptyIdx t.data (indicesOf t.b bkt) with _ | i
    · rw [hempty] at h; exact Option.noConfusion h
    · rw [hempty] at h
      obtain ⟨hmem, hcell⟩ := findEmptyIdx_spec hempty
      exact Or.inr ⟨i, hcell, hmem, by simpa using h.symm⟩
  · rw [hfind] at h
    obtain ⟨hmem, v0, hcell⟩ := findKeyIdx_spec hfind
    exact Or.inl ⟨i, v0, hcell, hmem, by simpa using h.symm⟩

theorem remove_cases {t t' : Table K V} {bkt : Nat} {k : K}
    (h : remove t bkt k = some t') :
    ∃ i v0, cellAt t.data i = some (k, v0) ∧ i ∈ indicesOf t.b bkt ∧
      t' = { t with data := setCell t.data i none, len := t.len - 1 } := by
  unfold remove at h
  rcases hfind : findKeyIdx t.data k (indicesOf t.b bkt) with _ | i
  · rw [hfind] at h; exact Option.noConfusion h
  · rw [hfind] at h
    obtain ⟨hmem, v0, hcell⟩ := findKeyIdx_spec hfind
    exact ⟨i, v0, hcell, hmem, by simpa using h.symm⟩

omit [DecidableEq K] in
theorem displaceWith_cases {put : Table K V → K → V → Option (Table K V)}
    {t t' : Table K V} {b1 b2 : Nat} {k : K} {v : V}
    (h : displaceWith hash put t b1 b2 k v = some t') :
    (∃ p, (bfsLoop hash t CYCLES (seedOf t b1 b2)).1 = BfsOut.found p ∧
      t' = { t with data := migrate k v t.data p, len := t.len + 1 }) ∨
    ((bfsLoop hash t CYCLES (seedOf t b1 b2)).1 = BfsOut.exhausted ∧
      ∃ t2, reinsertList put (grow t) (pairsList t.data) = some t2 ∧ put t2 k v = some t') := by
  unfold displaceWith at h
  rcases hbfs : (bfsLoop hash t CYCLES (seedOf t b1 b2)).1 with p | _ | _
  · rw [hbfs] at h
    exact Or.inl ⟨p, rfl, by simpa using h.symm⟩
  · rw [hbfs] at h
    rcases hre : reinsertList put (grow t) (pairsList t.data) with _ | t2
    · rw [hre] at h; exact Option.noConfusion h
    · rw [hre] at h
      exact Or.inr ⟨rfl, t2, rfl, h⟩
  · rw [hbfs] at h; exact Option.noConfusion h

theorem setitemStep_cases {put : Table K V → K → V → Option (Table K V)}
    {t t' : Table K V} {k : K} {v : V}
    (h : setitemStep hash put t k v = some t') :
    upsert t (buckets hash t k).1 k v = some t' ∨
    (upsert t (buckets hash t k).1 k v = none ∧
      upsert t (buckets hash t k).2 k v = some t') ∨
    (upsert t (buckets hash t k).1 k v = none ∧
      upsert t (buckets hash t k).2 k v = none ∧
      displaceWith hash put t (buckets hash t k).1 (buckets hash t k).2 k v = some t') := by
  simp only [setitemStep] at h
  rcases h1 : upsert t (buckets hash t k).1 k v with _ | u1 <;> simp only [h1] at h
  · rcases h2 : upsert t (buckets hash t k).2 k v with _ | u2 <;> simp only [h2] at h
    · exact Or.inr (Or.inr ⟨rfl, rfl, h⟩)
    · exact Or.inr (Or.inl ⟨rfl, h⟩)
  · exact Or.inl h

omit [DecidableEq K] in
theorem reinsertList_pres {P : Table K V → Prop} {Q : K → Prop}
    {put : Table K V → K → V → Option (Table K V)}
    (hput : ∀ t a w t', P t → Q a → put t a w = some t' → P t') :
    ∀ (ps : List (K × V)) (acc t' : Table K V), (∀ kv ∈ ps, Q kv.1) → P acc →
      reinsertList put acc ps = some t' → P t'
  | [], acc, t', _, hp, h => by
    obtain rfl : acc = t' := by simpa [reinsertList] using h
    exact hp
  | kv :: rest, acc, t', hq, hp, h => by
    unfold reinsertList at h
    rcases h1 : put acc kv.1 kv.2 with _ | acc2
    · rw [h1] at h; exact Option.noConfusion h
    · rw [h1] at h
      exact reinsertList_pres hput rest acc2 t'
        (fun x hx => hq x (List.mem_cons_of_mem _ hx))
        (hput acc kv.1 kv.2 acc2 hp (hq kv (List.mem_cons_self _ _)) h1) h

omit [DecidableEq K] in
theorem grow_struct {t : Table K V} (hwf : StructWF t) : StructWF (grow t) := by
  obtain ⟨hlen, hev, h2⟩ := hwf
  refine ⟨by simp [grow], ?_, ?_⟩
  · show 2 * t.m % 2 = 0
    omega
  · show 2 ≤ 2 * t.m
    omega

theorem upsert_struct {t t' : Table K V} {bkt : Nat} {k : K} {v : V}
    (hwf : StructWF t) (h : upsert t bkt k v = some t') : StructWF t' := by
  rcases upsert_cases h with ⟨i, v0, _, _, rfl⟩ | ⟨i, _, _, rfl⟩ <;>
    exact ⟨by simpa [length_setCell] using hwf.1, hwf.2.1, hwf.2.2⟩

theorem setitemStep_struct {put : Table K V → K → V → Option (Table K V)}
    (hput : ∀ t a w t', StructWF t → put t a w = some t' → StructWF t')
    {t t' : Table K V} {k : K} {v : V}
    (hwf : StructWF t) (h : setitemStep hash put t k v = some t') : StructWF t' := by
  rcases setitemStep_cases h with h1 | ⟨_, h2⟩ | ⟨_, _, h3⟩
  · exact upsert_struct hwf h1
  · exact upsert_struct hwf h2
  · rcases displaceWith_cases h3 with ⟨p, _, rfl⟩ | ⟨_, t2, hre, hput'⟩
    · exact ⟨by simpa [migrate_length] using hwf.1, hwf.2.1, hwf.2.2⟩
    · refine hput t2 k v t' ?_ hput'
      exact reinsertList_pres (Q := fun _ => True)
        (fun t a w t' hp _ h => hput t a w t' hp h)
        (pairsList t.data) (grow t) t2 (fun _ _ => trivial) (grow_struct hwf) hre

theorem setitem_struct :
    ∀ (fuel : Nat) (t : Table K V) (k : K) (v : V) (t' : Table K V),
      StructWF t → setitem hash fuel t k v = some t' → StructWF t'
  | 0, _, _, _, _, hwf, h =>
    setitemStep_struct (fun _ _ _ _ _ h => Option.noConfusion h) hwf h
  | fuel + 1, _, _, _, _, hwf, h =>
    setitemStep_struct (fun t a w t' hp h => setitem_struct fuel t a w t' hp h) hwf h

end Preserve

/-! A key absent from the table stays absent under puts of other keys,
and a put of the key itself leaves exactly one cell holding it. -/

section KeyZero

variable {K V : Type} [DecidableEq K] {hash : K → Nat} {k : K}

theorem upsert_keyZero {t t' : Table K V} {bkt : Nat} {a : K} {w : V}
    (hz : keyCount t.data k = 0) (hak : a ≠ k)
    (h : upsert t bkt a w = some t') : keyCount t'.data k = 0 := by
  rcases upsert_cases h with ⟨i, v0, _, _, rfl⟩ | ⟨i, _, _, rfl⟩ <;>
    exact keyCount_zero_setCell hz
      (fun kv hkv => by
        obtain rfl : (a, w) = kv := by simpa using hkv
        exact hak) i

theorem displaceWith_keyZero {put : Table K V → K → V → Option (Table K V)}
    (hput : ∀ t a w t', keyCount t.data k = 0 → a ≠ k → put t a w = some t' →
      keyCount t'.data k = 0)
    {t t' : Table K V} {b1 b2 : Nat} {a : K} {w : V}
    (hz : keyCount t.data k = 0) (hak : a ≠ k)
    (h : displaceWith hash put t b1 b2 a w = some t') : keyCount t'.data k = 0 := by
  rcases displaceWith_cases h with ⟨p, _, rfl⟩ | ⟨_, t2, hre, hput'⟩
  · exact migrate_keyCount_zero a w k hak p t.data hz
  · refine hput t2 a w t' ?_ hak hput'
    refine reinsertList_pres (P := fun t => keyCount t.data k = 0) (Q := fun x => x ≠ k)
      (fun t a w t' hp hq h => hput t a w t' hp hq h)
      (pairsList t.data) (grow t) t2 (pairsList_keys_ne hz) ?_ hre
    exact keyCount_replicate _ k

theorem setitemStep_keyZero {put : Table K V → K → V → Option (Table K V)}
    (hput : ∀ t a w t', keyCount t.data k = 0 → a ≠ k → put t a w = some t' →
      keyCount t'.data k = 0)
    {t t' : Table K V} {a : K} {w : V}
    (hz : keyCount t.data k = 0) (hak : a ≠ k)
    (h : setitemStep hash put t a w = some t') : keyCount t'.data k = 0 := by
  rcases setitemStep_cases h with h1 | ⟨_, h2⟩ | ⟨_, _, h3⟩
  · exact upsert_keyZero hz hak h1
  · exact upsert_keyZero hz hak h2
  · exact displaceWith_keyZero hput hz hak h3

theorem setitem_keyZero :
    ∀ (fuel : Nat) (t : Table K V) (a : K) (w : V) (t' : Table K V),
      keyCount t.data k = 0 → a ≠ k → setitem hash fuel t a w = some t' →
      keyCount t'.data k = 0
  | 0, _, _, _, _, hz, hak, h =>
    setitemStep_keyZero (fun _ _ _ _ _ _ h => Option.noConfusion h) hz hak h
  | fuel + 1, _, _, _, _, hz, hak, h =>
    setitemStep_keyZero (fun t a w t' hp hq h => setitem_keyZero fuel t a w t' hp hq h)
      hz hak h

omit [DecidableEq K] in
theorem seedOf_queueOK {t : Table K V} {b1 b2 : Nat} (hwf : StructWF t)
    (hb1 : b1 < t.m) (hb2 : b2 < t.m) : QueueOK t (seedOf t b1 b2) := by
  intro p hp
  obtain ⟨i, hi, rfl⟩ := List.mem_map.mp hp
  refine ⟨by simp, ?_, by simp⟩
  intro j hj
  obtain rfl : j = i := by simpa using hj
  rw [hwf.1]
  rcases List.mem_append.mp hi with hi | hi
  · exact mem_indicesOf_lt hb1 hi
  · exact mem_indicesOf_lt hb2 hi

variable {v : V}

theorem displaceWith_insert {put : Table K V → K → V → Option (Table K V)}
    (hh : ∀ x, hash x < 2 ^ 64)
    (hputS : ∀ t a w t', StructWF t → put t a w = some t' → StructWF t')
    (hputZ : ∀ t a w t', keyCount t.data k = 0 → a ≠ k → put t a w = some t' →
      keyCount t'.data k = 0)
    (hputI : ∀ t t', StructWF t → keyCount t.data k = 0 → put t k v = some t' →
      lookupAll t'.data k = [v])
    {t t' : Table K V} {b1 b2 : Nat}
    (hwf : StructWF t) (hb1 : b1 < t.m) (hb2 : b2 < t.m)
    (hz : keyCount t.data k = 0)
    (h : displaceWith hash put t b1 b2 k v = some t') :
    lookupAll t'.data k = [v] := by
  rcases displaceWith_cases h with ⟨p, hbfs, rfl⟩ | ⟨_, t2, hre, hput'⟩
  · obtain ⟨hne, hrange, _, _⟩ :=
      bfsLoop_found_spec hash t hh hwf CYCLES _ p (seedOf_queueOK hwf hb1 hb2) hbfs
    exact migrate_lookupAll k v p t.data hne hrange hz
  · refine hputI t2 t' ?_ ?_ hput'
    · exact reinsertList_pres (Q := fun _ => True) (fun t a w t' hp _ h => hputS t a w t' hp h)
        (pairsList t.data) (grow t) t2 (fun _ _ => trivial) (grow_struct hwf) hre
    · exact reinsertList_pres (P := fun t => keyCount t.data k = 0) (Q := fun x => x ≠ k)
        (fun t a w t' hp hq h => hputZ t a w t' hp hq h)
        (pairsList t.data) (grow t) t2 (pairsList_keys_ne hz) (keyCount_replicate _ k) hre

theorem setitemStep_insert {put : Table K V → K → V → Option (Table K V)}
    (hh : ∀ x, hash x < 2 ^ 64)
    (hputS : ∀ t a w t', StructWF t → put t a w = some t' → StructWF t')
    (hputZ : ∀ t a w t', keyCount t.data k = 0 → a ≠ k → put t a w = some t' →
      keyCount t'.data k = 0)
    (hputI : ∀ t t', StructWF t → keyCount t.data k = 0 → put t k v = some t' →
      lookupAll t'.data k = [v])
    {t t' : Table K V}
    (hwf : StructWF t) (hz : keyCount t.data k = 0)
    (h : setitemStep hash put t k v = some t') : lookupAll t'.data k = [v] := by
  have hb := buckets_lt (t := t) hh hwf.2.1 hwf.2.2 k
  rcases setitemStep_cases h with h1 | ⟨_, h2⟩ | ⟨_, _, h3⟩
  · rcases upsert_cases h1 with ⟨i, v0, hc, _, rfl⟩ | ⟨i, _, hmem, rfl⟩
    · exact absurd rfl (keyCount_zero_cellAt hz hc)
    · refine lookupAll_setCell_some v hz ?_
      rw [hwf.1]
      exact mem_indicesOf_lt hb.1 hmem
  · rcases upsert_cases h2 with ⟨i, v0, hc, _, rfl⟩ | ⟨i, _, hmem, rfl⟩
    · exact absurd rfl (keyCount_zero_cellAt hz hc)
    · refine lookupAll_setCell_some v hz ?_
      rw [hwf.1]
      exact mem_indicesOf_lt hb.2 hmem
  · exact displaceWith_insert hh hputS hputZ hputI hwf hb.1 hb.2 hz h3

theorem setitem_insert :
    ∀ (fuel : Nat) (t t' : Table K V), (∀ x, hash x < 2 ^ 64) → StructWF t →
      keyCount t.data k = 0 → setitem hash fuel t k v = some t' →
      lookupAll t'.data k = [v]
  | 0, _, _, hh, hwf, hz, h =>
    setitemStep_insert hh (fun _ _ _ _ _ h => Option.noConfusion h)
      (fun _ _ _ _ _ _ h => Option.noConfusion h)
      (fun _ _ _ _ h => Option.noConfusion h) hwf hz h
  | fuel + 1, _, _, hh, hwf, hz, h =>
    setitemStep_insert hh (fun t a w t' hp h => setitem_struct fuel t a w t' hp h)
      (fun t a w t' hp hq h => setitem_keyZero fuel t a w t' hp hq h)
      (fun t t' hwf2 hz2 h => setitem_insert fuel t t' hh hwf2 hz2 h) hwf hz h

end KeyZero

/-- Claim C7: the displacement engine performs at most `CYCLES = 500`
path dequeues; a completing call (the eviction-path case, or the
budget-exhausted case that rehashes and retries the pending pair with
exactly one insert) leaves the pending key — absent when `_displace` is
invoked — present in exactly one cell, holding the pending value. -/
theorem displace_budget_and_single_insert {K V : Type} [DecidableEq K]
    (hash : K → Nat) (hh : ∀ x, hash x < 2 ^ 64) (fuel : Nat)
    (t : Table K V) (b1 b2 : Nat) (k : K) (v : V) (t' : Table K V)
    (hwf : StructWF t) (hb1 : b1 < t.m) (hb2 : b2 < t.m)
    (hz : keyCount t.data k = 0)
    (h : displace hash fuel t b1 b2 k v = some t') :
    (bfsLoop hash t CYCLES (seedOf t b1 b2)).2 ≤ CYCLES ∧
      lookupAll t'.data k = [v] := by
  refine ⟨bfsLoop_count_le hash t CYCLES _, ?_⟩
  unfold displace at h
  cases fuel with
  | zero =>
    exact displaceWith_insert hh (fun _ _ _ _ _ h => Option.noConfusion h)
      (fun _ _ _ _ _ _ h => Option.noConfusion h)
      (fun _ _ _ _ h => Option.noConfusion h) hwf hb1 hb2 hz h
  | succ fuel =>
    exact displaceWith_insert hh (fun t a w t' hp h => setitem_struct fuel t a w t' hp h)
      (fun t a w t' hp hq h => setitem_keyZero fuel t a w t' hp hq h)
      (fun t t' hwf2 hz2 h => setitem_insert fuel t t' hh hwf2 hz2 h) hwf hb1 hb2 hz h

/-- Every digest produced by `exHash` is a 64-bit value. -/
theorem exHash_lt : ∀ x, exHash x < 2 ^ 64 := by
  intro x
  rcases x with _ | _ | _ | _ | _ | _ | _ | x
  case succ.succ.succ.succ.succ.succ.succ =>
    show dg 0 3 < 2 ^ 64
    decide
  all_goals decide

/-- Witness for C7: the displacement triggered by `put 7 80` on `exT9`
(both candidate buckets full, key 7 absent) completes within budget and
leaves key 7 exactly once, holding 80. -/
theorem displace_budget_and_single_insert_witness :
    (bfsLoop exHash exT9 CYCLES (seedOf exT9 0 3)).2 ≤ CYCLES ∧
      lookupAll exT10.data 7 = [80] :=
  displace_budget_and_single_insert exHash exHash_lt 1 exT9 0 3 7 80 exT10
    (by decide) (by decide) (by decide) (by decide) (by decide)

/-! The live-count invariant: `self._len` equals the number of occupied
cells in every reachable state. -/

section LenInv

variable {K V : Type} [DecidableEq K] {hash : K → Nat}

/-- The inductive invariant: structural well-formedness plus `len`
agreeing with the occupied-cell count. -/
def Inv (t : Table K V) : Prop :=
  StructWF t ∧ t.len = (occCount t.data : Int)

theorem upsert_inv {t t' : Table K V} {bkt : Nat} {k : K} {v : V}
    (hinv : Inv t) (hbkt : bkt < t.m) (h : upsert t bkt k v = some t') : Inv t' := by
  obtain ⟨hwf, hlen⟩ := hinv
  rcases upsert_cases h with ⟨i, v0, hc, _, rfl⟩ | ⟨i, hc, hmem, rfl⟩
  · refine ⟨⟨by simpa [length_setCell] using hwf.1, hwf.2.1, hwf.2.2⟩, ?_⟩
    show t.len = (occCount (setCell t.data i (some (k, v))) : Int)
    rw [occCount_setCell_some_of_some t.data i _ _ hc]
    exact hlen
  · refine ⟨⟨by simpa [length_setCell] using hwf.1, hwf.2.1, hwf.2.2⟩, ?_⟩
    have hlt : i < t.data.length := by
      rw [hwf.1]; exact mem_indicesOf_lt hbkt hmem
    show t.len + 1 = (occCount (setCell t.data i (some (k, v))) : Int)
    rw [occCount_setCell_some_of_none t.data i _ hlt hc]
    push_cast
    omega

theorem remove_inv {t t' : Table K V} {bkt : Nat} {k : K}
    (hinv : Inv t) (h : remove t bkt k = some t') : Inv t' := by
  obtain ⟨hwf, hlen⟩ := hinv
  obtain ⟨i, v0, hc, _, rfl⟩ := remove_cases h
  refine ⟨⟨by simpa [length_setCell] using hwf.1, hwf.2.1, hwf.2.2⟩, ?_⟩
  show t.len - 1 = (occCount (setCell t.data i none) : Int)
  have := occCount_setCell_none_of_some t.data i _ hc
  omega

theorem setitemStep_inv {put : Table K V → K → V → Option (Table K V)}
    (hh : ∀ x, hash x < 2 ^ 64)
    (hput : ∀ t a w t', Inv t → put t a w = some t' → Inv t')
    {t t' : Table K V} {k : K} {v : V}
    (hinv : Inv t) (h : setitemStep hash put t k v = some t') : Inv t' := by
  have hb := buckets_lt (t := t) hh hinv.1.2.1 hinv.1.2.2 k
  rcases setitemStep_cases h with h1 | ⟨_, h2⟩ | ⟨_, _, h3⟩
  · exact upsert_inv hinv hb.1 h1
  · exact upsert_inv hinv hb.2 h2
  · rcases displaceWith_cases h3 with ⟨p, hbfs, rfl⟩ | ⟨_, t2, hre, hput'⟩
    · obtain ⟨hne, hrange, hhead, htail⟩ := bfsLoop_found_spec hash t hh hinv.1 CYCLES _ p
        (seedOf_queueOK hinv.1 hb.1 hb.2) hbfs
      refine ⟨⟨by simpa [migrate_length] using hinv.1.1, hinv.1.2.1, hinv.1.2.2⟩, ?_⟩
      show t.len + 1 = (occCount (migrate k v t.data p) : Int)
      rw [migrate_occ_found k v p t.data hne hrange hhead htail]
      have := hinv.2
      push_cast
      omega
    · refine hput t2 k v t' ?_ hput'
      refine reinsertList_pres (Q := fun _ => True)
        (fun t a w t' hp _ h => hput t a w t' hp h)
        (pairsList t.data) (grow t) t2 (fun _ _ => trivial) ?_ hre
      exact ⟨grow_struct hinv.1, by simp [grow, occCount_replicate]⟩

theorem setitem_inv (hh : ∀ x, hash x < 2 ^ 64) :
    ∀ (fuel : Nat) (t : Table K V) (k : K) (v : V) (t' : Table K V),
      Inv t → setitem hash fuel t k v = some t' → Inv t'
  | 0, _, _, _, _, hinv, h =>
    setitemStep_inv hh (fun _ _ _ _ _ h => Option.noConfusion h) hinv h
  | fuel + 1, _, _, _, _, hinv, h =>
    setitemStep_inv hh (fun t a w t' hp h => setitem_inv hh fuel t a w t' hp h) hinv h

theorem delitem_inv {t : Table K V} {k : K} (hinv : Inv t) :
    Inv (delitem hash t k).1 := by
  rcases h1 : remove t (buckets hash t k).1 k with _ | t1 <;> simp only [delitem, h1]
  · rcases h2 : remove t (buckets hash t k).2 k with _ | t2 <;> simp only [h2]
    · exact hinv
    · exact remove_inv hinv h2
  · exact remove_inv hinv h1

end LenInv

/-- The states reachable from a freshly constructed table by `put` and
`erase` operations.  Only non-degenerate constructions (`m >= 2`) are
included: on a table built with `m = 0` every subsequent operation of
the source raises IndexError before mutating anything, while the
embedding's total cell reads would silently continue, so such runs are
excluded rather than modelled unfaithfully. -/
inductive Reachable {K V : Type} [DecidableEq K] (hash : K → Nat) : Table K V → Prop
  | init (m b : Nat) (t : Table K V) (hm : 2 ≤ m) (h : initTable K V m b = some t) :
      Reachable hash t
  | put (t : Table K V) (fuel : Nat) (k : K) (v : V) (t' : Table K V)
      (ht : Reachable hash t) (h : setitem hash fuel t k v = some t') : Reachable hash t'
  | del (t : Table K V) (k : K) (ht : Reachable hash t) :
      Reachable hash (delitem hash t k).1

theorem reachable_inv {K V : Type} [DecidableEq K] {hash : K → Nat}
    (hh : ∀ x, hash x < 2 ^ 64) {t : Table K V} (hr : Reachable hash t) : Inv t := by
  induction hr with
  | init m b t hm h =>
    unfold initTable at h
    by_cases hev : m % 2 = 0
    · rw [if_pos hev] at h
      obtain rfl : _ = t := by simpa using h
      exact ⟨⟨by simp, hev, hm⟩, by simp [occCount_replicate]⟩
    · rw [if_neg hev] at h
      exact Option.noConfusion h
  | put t fuel k v t' ht h ih => exact setitem_inv hh fuel t k v t' ih h
  | del t k ht ih => exact delitem_inv ih

/-- Claim C9: in every state reachable by `put` and `erase` operations
from a freshly constructed table, `len()` equals the number of occupied
cells, which equals the number of keys yielded by one full iteration. -/
theorem len_eq_occupied_eq_iteration {K V : Type} [DecidableEq K]
    (hash : K → Nat) (hh : ∀ x, hash x < 2 ^ 64) (t : Table K V)
    (hr : Reachable hash t) :
    t.len = (occCount t.data : Int) ∧ (iterKeys t.data).length = occCount t.data :=
  ⟨(reachable_inv hh hr).2, length_iterKeys t.data⟩

/-- The fresh table `new(m := 2, b := 1)`. -/
def exS0 : Table Nat Nat := { b := 1, m := 2, len := 0, data := [none, none] }

/-- `exS0` after `put 1 10`. -/
def exS1 : Table Nat Nat := { b := 1, m := 2, len := 1, data := [some (1, 10), none] }

/-- Witness for C9 on the concrete reachable state `exS1`. -/
theorem len_eq_occupied_eq_iteration_witness :
    exS1.len = (occCount exS1.data : Int) ∧ (iterKeys exS1.data).length = occCount exS1.data :=
  len_eq_occupied_eq_iteration exHash exHash_lt exS1
    (Reachable.put exS0 1 1 10 exS1 (Reachable.init 2 1 exS0 (by decide) (by decide))
      (by decide))

/-! Failing lookups and erases: NotFound exactly on absent keys, and no
state change on failure. -/

section NotFound

variable {K V : Type} [DecidableEq K]

/-- Invariant 1 of the spec, decidably: every occupied cell lies in one
of the two candidate buckets of its key.  (`_displace` asserts exactly
this for each victim.) -/
def placementB (hash : K → Nat) (t : Table K V) : Bool :=
  (List.range t.data.length).all fun i =>
    match cellAt t.data i with
    | none => true
    | some kv =>
      decide (i / t.b = (buckets hash t kv.1).1 ∨ i / t.b = (buckets hash t kv.1).2)

omit [DecidableEq K] in
theorem placementB_spec {hash : K → Nat} {t : Table K V} (h : placementB hash t = true) :
    ∀ (i : Nat) (kv : K × V), cellAt t.data i = some kv →
      i / t.b = (buckets hash t kv.1).1 ∨ i / t.b = (buckets hash t kv.1).2 := by
  intro i kv hc
  have hi : i < t.data.length := cellAt_lt_length _ _ _ hc
  have h2 := List.all_eq_true.mp h i (List.mem_range.mpr hi)
  simpa [hc] using h2

theorem getitem_none_iff {hash : K → Nat} {t : Table K V} {k : K} :
    getitem hash t k = none ↔
      searchB t.data t.b (buckets hash t k).1 k = none ∧
        searchB t.data t.b (buckets hash t k).2 k = none := by
  rcases h1 : searchB t.data t.b (buckets hash t k).1 k with _ | v1 <;>
    simp [getitem, h1]

theorem delitem_false_iff {hash : K → Nat} {t : Table K V} {k : K} :
    (delitem hash t k).2 = false ↔
      remove t (buckets hash t k).1 k = none ∧ remove t (buckets hash t k).2 k = none := by
  rcases h1 : remove t (buckets hash t k).1 k with _ | t1 <;> simp only [delitem, h1]
  · rcases h2 : remove t (buckets hash t k).2 k with _ | t2 <;> simp [h2]
  · simp

theorem remove_eq_none_iff {t : Table K V} {bkt : Nat} {k : K} :
    remove t bkt k = none ↔ findKeyIdx t.data k (indicesOf t.b bkt) = none := by
  unfold remove
  rcases h : findKeyIdx t.data k (indicesOf t.b bkt) with _ | i <;> simp [h]

theorem searchB_eq_none_iff_findKeyIdx {d : List (Option (K × V))} {b bkt : Nat} {k : K} :
    searchB d b bkt k = none ↔ findKeyIdx d k (indicesOf b bkt) = none := by
  constructor
  · intro h
    exact findKeyIdx_eq_none (searchFrom_none_spec h)
  · intro h
    exact searchFrom_eq_none (findKeyIdx_none_spec h)

end NotFound

/-- Claim C5: on a well-formed table satisfying the placement invariant,
`get k` fails exactly when no occupied cell holds `k`, `erase k` fails
exactly when `get k` fails, and a failing `erase` leaves the table
unchanged (a failing `get` performs no writes at all: `getitem` is a
pure function of the table). -/
theorem notfound_iff_absent {K V : Type} [DecidableEq K]
    (hash : K → Nat) (t : Table K V) (k : K)
    (hwf : StructWF t) (hpl : placementB hash t = true) :
    (getitem hash t k = none ↔ keyCount t.data k = 0) ∧
      ((delitem hash t k).2 = false ↔ getitem hash t k = none) ∧
      ((delitem hash t k).2 = false → (delitem hash t k).1 = t) := by
  have key_iff : (searchB t.data t.b (buckets hash t k).1 k = none ∧
      searchB t.data t.b (buckets hash t k).2 k = none) ↔ keyCount t.data k = 0 := by
    constructor
    · rintro ⟨h1, h2⟩
      by_contra hz
      obtain ⟨i, v0, hc⟩ := keyCount_pos_exists hz
      have hi : i < t.data.length := cellAt_lt_length _ _ _ hc
      have hb : 0 < t.b := by
        rcases Nat.eq_zero_or_pos t.b with h0 | h
        · rw [hwf.1, h0] at hi
          simp at hi
        · exact h
      have hmem : i ∈ indicesOf t.b (i / t.b) := self_mem_indicesOf hb
      rcases placementB_spec hpl i (k, v0) hc with he | he
      · rw [he] at hmem
        exact searchFrom_ne_none hmem hc h1
      · rw [he] at hmem
        exact searchFrom_ne_none hmem hc h2
    · intro hz
      constructor <;>
        exact searchFrom_eq_none fun i _ kv hc => keyCount_zero_cellAt hz hc
  refine ⟨getitem_none_iff.trans key_iff, ?_, ?_⟩
  · rw [delitem_false_iff, getitem_none_iff, remove_eq_none_iff, remove_eq_none_iff,
      searchB_eq_none_iff_findKeyIdx, searchB_eq_none_iff_findKeyIdx]
  · intro hfalse
    obtain ⟨h1, h2⟩ := delitem_false_iff.mp hfalse
    simp [delitem, h1, h2]

/-- Witness for C5 on the concrete reachable table `exS1` and the absent
key 0. -/
theorem notfound_iff_absent_witness :
    (getitem exHash exS1 0 = none ↔ keyCount exS1.data 0 = 0) ∧
      ((delitem exHash exS1 0).2 = false ↔ getitem exHash exS1 0 = none) ∧
      ((delitem exHash exS1 0).2 = false → (delitem exHash exS1 0).1 = exS1) :=
  notfound_iff_absent exHash exS1 0 (by decide) (by decide)

end Cuckoo
